import Mathlib

/-
Verification of ghost.c (the word game Ghost, chindesaurus/ghost).

The program is shallowly embedded: the byte stream of the dictionary file and
of the players' input is a `List Nat` of character codes (C `char` values),
the trie is an inductive tree with a list of 26 child slots, and the game
loop is a step function on an explicit `GameState`.  Machine integers are
modelled as `Int`/`Nat`; the child index `int index = input - 'a'` is an
`Int` (it is negative for a newline, see `loadIndices`).
-/

set_option autoImplicit false

namespace Ghost

/-- CHARS in ghost.c: letters in the alphabet. -/
def CHARS : Nat := 26

/-- MAX_LENGTH in ghost.c: maximum word length. -/
def MAX_LENGTH : Nat := 45

/-- MIN_LENGTH in ghost.c: minimum word length. -/
def MIN_LENGTH : Nat := 3

/-- A node of the trie (`struct node`): an `is_word` flag and an array of
`CHARS = 26` child pointers; a `none` entry is a NULL pointer. -/
inductive Node : Type where
  | mk : Bool → List (Option Node) → Node

/-- The `is_word` field of a node. -/
def Node.is_word : Node → Bool
  | .mk w _ => w

/-- The `children` field of a node. -/
def Node.children : Node → List (Option Node)
  | .mk _ cs => cs

/-- Reading slot `k` of a child array (`curr->children[k]`).  Reading past the
end of the list yields no child; the arrays built by the program always have
length 26. -/
def childGet : List (Option Node) → Nat → Option Node
  | [], _ => none
  | x :: _, 0 => x
  | _ :: xs, k+1 => childGet xs k

/-- Writing slot `k` of a child array (`curr->children[k] = v`).  A write past
the end of the list is dropped; in the C program the index is always in range
on defined executions (see the claim about index bounds). -/
def childSet : List (Option Node) → Nat → Option Node → List (Option Node)
  | [], _, _ => []
  | _ :: xs, 0, v => v :: xs
  | x :: xs, k+1, v => x :: childSet xs k v

/-- Reading child `i` of a node, with the C `int` index.  A negative index is
an out-of-bounds array access (undefined behaviour in C); it is modelled as
reading no child. -/
def childAt (n : Node) (i : Int) : Option Node :=
  if 0 ≤ i then childGet n.children i.toNat else none

/-- Writing child `i` of a node (the link `iterator->children[index] = new`).
A negative index would be undefined behaviour in C and is modelled as a
no-op. -/
def setChild (n : Node) (i : Int) (c : Node) : Node :=
  if 0 ≤ i then .mk n.is_word (childSet n.children i.toNat (some c)) else n

/-- Setting the `is_word` flag of a node (`iterator->is_word = true`). -/
def setWordFlag (n : Node) : Node :=
  .mk true n.children

/-- A freshly `malloc`ed and initialized node: `is_word = false` and all 26
children NULL. -/
def emptyNode : Node :=
  .mk false (List.replicate CHARS none)

/-- The body of load's else-branch at one node: if `children[index]` is NULL,
allocate a new empty node and link it; then the iterator moves there. -/
def ensureChild (i : Int) (n : Node) : Node :=
  match childAt n i with
  | some _ => n
  | none => setChild n i emptyNode

/-- Walking the trie from `n` along a list of child indices, as the game loop
and the load iterator do one `children[index]` step at a time.  Returns the
node reached, or `none` as soon as a NULL child is hit. -/
def walk (n : Node) : List Int → Option Node
  | [] => some n
  | i :: rest =>
    match childAt n i with
    | some c => walk c rest
    | none => none

/-- ASCII `tolower`: fold an upper-case letter to lower case, leave every
other character unchanged (C `input = tolower(input)`). -/
def toLowerC (c : Nat) : Nat :=
  if 65 ≤ c ∧ c ≤ 90 then c + 32 else c

/-- ASCII `isalpha` in the C locale. -/
def isAlphaC (c : Nat) : Bool :=
  (65 ≤ c && c ≤ 90) || (97 ≤ c && c ≤ 122)

/-- The child index of a (lower-cased) character: `int index = c - 'a'`.
The result is a C `int`, hence `Int`: for a newline it is `10 - 97 = -87`. -/
def charIndex (c : Nat) : Int :=
  (c : Int) - 97

/-- The index path of a dictionary word: each character is lower-cased by
load before the index is taken. -/
def wpath (w : List Nat) : List Int :=
  w.map (fun c => charIndex (toLowerC c))

/-- The index path of the game's fragment; the fragment only ever stores
already lower-cased characters. -/
def fragPath (frag : List Nat) : List Int :=
  frag.map charIndex

/-- Decides whether `p` is a prefix of `w`. -/
def prefB : List Int → List Int → Bool
  | [], _ => true
  | _ :: _, [] => false
  | a :: p, b :: w => a == b && prefB p w

/-- A newline-terminated word source: each word followed by the byte 10, in
file order.  This is the byte stream `load` reads with `fgetc`. -/
def encode (words : List (List Nat)) : List Nat :=
  words.foldr (fun w acc => w ++ 10 :: acc) []

/-- Replacing the node at the end of path `p` by `f` of it, rebuilding the
spine.  This expresses an in-place update through the `iterator` pointer of
`load` as a function on the tree; the path always exists when `load` uses it,
so the `none` branch is unreachable there. -/
def modifyAt (f : Node → Node) : Node → List Int → Node
  | n, [] => f n
  | n, i :: rest =>
    match childAt n i with
    | some c => setChild n i (modifyAt f c rest)
    | none => n

/-- One iteration of load's `fgetc` loop.  The state is the trie together
with the index path from the root to the `iterator` node.  The character is
lower-cased, its index is computed, and then: a newline marks the iterator's
`is_word` and resets the iterator to the root; any other character descends
to `children[index]`, allocating the child first if it is NULL. -/
def loadStep (st : Node × List Int) (c0 : Nat) : Node × List Int :=
  let c := toLowerC c0
  let index := charIndex c
  if c = 10 then
    (modifyAt setWordFlag st.1 st.2, [])
  else
    (modifyAt (ensureChild index) st.1 st.2, st.2 ++ [index])

/-- Loading a dictionary byte stream: the root is allocated empty and the
`fgetc` loop runs over the whole stream.  This models the successful path of
`load` (fopen and malloc failures are the `false` return, handled by
`ghostMain`). -/
def load (chars : List Nat) : Node :=
  (chars.foldl loadStep (emptyNode, [])).1

/-- The index computed by each iteration of load's loop: `load` computes
`int index = input - 'a'` after lower-casing for every character read,
including newlines, although it only uses it in the non-newline branch. -/
def loadIndices (chars : List Nat) : List Int :=
  chars.map (fun c => charIndex (toLowerC c))

/-- The indices load actually uses to subscript a child array: those of the
non-newline characters. -/
def loadUsedIndices (chars : List Nat) : List Int :=
  (chars.filter (fun c => !(toLowerC c == 10))).map (fun c => charIndex (toLowerC c))

/-- The clean-trie insertion of one index path: descend along the path,
creating empty nodes where a child is missing, and set `is_word` at the end.
`load` on a newline-terminated word behaves exactly like this (proved
below); all trie facts are proved through it. -/
def insertW : Node → List Int → Node
  | n, [] => setWordFlag n
  | n, i :: rest => setChild n i (insertW ((childAt n i).getD emptyNode) rest)

/-- Building a trie by inserting a list of index paths in order. -/
def buildW (t : Node) (qs : List (List Int)) : Node :=
  qs.foldl insertW t

mutual

/-- The list of heap addresses released by `freeNode(curr)`.  Since the tree
is a strict hierarchy with no sharing, a node's address is identified with
its index path relative to `curr`.  For each slot `i` in order, `freeNode`
recurses into a non-NULL child (releasing all of the child's proper
descendants) and then calls `free(curr->children[i])`, which releases the
child itself and is a no-op on NULL.  `curr` itself is not freed. -/
def freedBy : Node → List (List Int)
  | .mk _ cs => freedChildren 0 cs

/-- The addresses released by the `for` loop of `freeNode` from slot `i`
onwards. -/
def freedChildren : Int → List (Option Node) → List (List Int)
  | _, [] => []
  | i, none :: rest => freedChildren (i+1) rest
  | i, some c :: rest =>
    ((freedBy c).map (fun p => i :: p) ++ [[i]]) ++ freedChildren (i+1) rest

end

/-- The addresses released by `unload()`: `freeNode(root)` followed by
`free(root)`; the root's own address is the empty path. -/
def unloadFrees (n : Node) : List (List Int) :=
  freedBy n ++ [[]]

/-- The boolean result of `unload()`: it always returns true. -/
def unloadResult : Bool := true

/-- The game state of the main gameplay loop: `curr_player`, `letter_count`,
the `fragment` buffer contents (the characters before the NUL terminator),
and the cursor `letter` into the trie. -/
structure GameState : Type where
  curr_player : Nat
  letter_count : Nat
  fragment : List Nat
  letter : Node

/-- The initial game state: player 1, empty fragment, cursor at the root. -/
def initState (t : Node) : GameState :=
  ⟨1, 0, [], t⟩

/-- Writing `fragment[i] = c` into the NUL-terminated fragment buffer: at the
current end of the string this appends one character; before the end it
overwrites; past the end the write would land beyond the terminator and not
change the string content. -/
def writeAt (l : List Nat) (i : Nat) (c : Nat) : List Nat :=
  if i = l.length then l ++ [c] else l.set i c

/-- The cursor move of the game loop (`letter->children[index]` with
`c = tolower(c); index = c - 'a'`): the child node for the letter if it
exists, else `none`. -/
def advance (cur : Node) (c : Nat) : Option Node :=
  childAt cur (charIndex (toLowerC c))

/-- The `is_word` query at a cursor position. -/
def is_complete_word (cur : Node) : Bool :=
  cur.is_word

/-- The outcome of one iteration of the gameplay loop body on an (alphabetic)
character. -/
inductive StepResult : Type where
  | rejected (s : GameState)
  | continued (s : GameState)
  | gameOver (loser : Nat) (word : List Nat)

/-- One iteration of the main gameplay loop on character `c0`.  The character
is lower-cased and its index taken; a NULL child prints a diagnostic and
`continue`s with the state untouched; otherwise the character is appended to
the fragment, the cursor descends, and the loop `break`s into game over
(before the player and the letter count are advanced) exactly when the new
node's `is_word` is set and `letter_count >= MIN_LENGTH`. -/
def step (N : Nat) (s : GameState) (c0 : Nat) : StepResult :=
  let c := toLowerC c0
  let index := charIndex c
  match childAt s.letter index with
  | none => .rejected s
  | some child =>
    let frag := writeAt s.fragment s.letter_count c
    if child.is_word = true ∧ MIN_LENGTH ≤ s.letter_count then
      .gameOver s.curr_player frag
    else
      .continued ⟨s.curr_player % N + 1, s.letter_count + 1, frag, child⟩

/-- Running the gameplay loop over the sequence of characters the `scanf`
calls deliver, one candidate character per prompt.  The inner `do`-`while`
discards a non-alphabetic character without touching any state and prompts
the same player again.  `.inl s` means the input ran out with the game still
in state `s` (the process would block on `scanf`); `.inr (p, w)` means game
over: player `p` loses having spelled `w`. -/
def runGame (N : Nat) (s : GameState) : List Nat → GameState ⊕ (Nat × List Nat)
  | [] => .inl s
  | c :: cs =>
    if isAlphaC c then
      match step N s c with
      | .rejected s' => runGame N s' cs
      | .continued s' => runGame N s' cs
      | .gameOver p w => .inr (p, w)
    else runGame N s cs

/-- The acting player of each accepted letter, in order (closing with the
loser when a letter ends the game); an observer over `step` used to state
the turn-order facts. -/
def turnSeq (N : Nat) (s : GameState) : List Nat → List Nat
  | [] => []
  | c :: cs =>
    if isAlphaC c then
      match step N s c with
      | .rejected s' => turnSeq N s' cs
      | .continued s' => s.curr_player :: turnSeq N s' cs
      | .gameOver _ _ => [s.curr_player]
    else turnSeq N s cs

/-- C `isspace` in the C locale (space and the five control whitespace
characters), as `atoi` skips it. -/
def isSpaceC (c : Nat) : Bool :=
  c == 32 || (9 ≤ c && c ≤ 13)

/-- The digit-accumulation loop of `atoi`: consume leading decimal digits,
stopping at the first non-digit. -/
def digitsVal : List Nat → Nat → Nat
  | c :: cs, acc => if 48 ≤ c && c ≤ 57 then digitsVal cs (acc * 10 + (c - 48)) else acc
  | [], acc => acc

/-- C `atoi` on a byte string: skip whitespace, read an optional sign, then
read leading decimal digits; a string with no leading digits yields 0.
(Overflow of the C `int` is not modelled; the program only compares the
result with 2.) -/
def atoiC (s : List Nat) : Int :=
  let s1 := s.dropWhile isSpaceC
  match s1 with
  | 43 :: rest => (digitsVal rest 0 : Int)
  | 45 :: rest => -(digitsVal rest 0 : Int)
  | _ => (digitsVal s1 0 : Int)

/-- The process-level behaviour of `main`.  `args` is `argv` (program name
included), `dict` is the dictionary byte stream, or `none` when the file
cannot be opened (load then returns false), and `stdin` is the sequence of
characters the game loop reads.  The result is the exit code, or `none` when
the game never reaches game over (the process does not exit).  Exits: 1 on
wrong argument count, 2 when `atoi(argv[1]) < 2`, 3 when the dictionary
cannot be loaded, 4 if `unload` failed (it never does), else 0. -/
def ghostMain (args : List (List Nat)) (dict : Option (List Nat)) (stdin : List Nat) :
    Option Nat :=
  match args with
  | [_, arg1] =>
    let N := atoiC arg1
    if N < 2 then some 2
    else
      match dict with
      | none => some 3
      | some chars =>
        match runGame N.toNat (initState (load chars)) stdin with
        | .inl _ => none
        | .inr _ => if unloadResult = true then some 0 else some 4
  | _ => some 1

/-- The claim language's notion of the argument "being an integer": an
optional sign followed by at least one decimal digit and nothing else.
Stated from the spec's words, to compare with what `atoi` accepts. -/
def allDigits : List Nat → Bool
  | [] => true
  | c :: cs => (48 ≤ c && c ≤ 57) && allDigits cs

/-- Decides whether an argument string is an integer literal (claim wording
for "N is non-integer"). -/
def isIntegerArg (s : List Nat) : Bool :=
  match s with
  | 43 :: rest => !rest.isEmpty && allDigits rest
  | 45 :: rest => !rest.isEmpty && allDigits rest
  | _ => !s.isEmpty && allDigits s

/-- The invariant of the gameplay loop: the cursor `letter` is the node
reached by walking the current fragment from the root of the loaded trie,
and `letter_count` is the number of characters in the fragment buffer. -/
def Inv (t : Node) (s : GameState) : Prop :=
  walk t (fragPath s.fragment) = some s.letter ∧ s.letter_count = s.fragment.length

/-- Well-formedness of a trie: every reachable node has exactly `CHARS = 26`
child slots, as every node the program allocates does. -/
def wf26 (t : Node) : Prop :=
  ∀ p m, walk t p = some m → m.children.length = CHARS

/-- An index path whose entries are all legal child indices. -/
def BoundPath (q : List Int) : Prop :=
  ∀ i ∈ q, 0 ≤ i ∧ i < 26

/-- A word whose characters are all ASCII alphabetic. -/
def AlphaWord (w : List Nat) : Prop :=
  ∀ c ∈ w, isAlphaC c = true

instance (w : List Nat) : Decidable (AlphaWord w) :=
  inferInstanceAs (Decidable (∀ c ∈ w, isAlphaC c = true))

/-- The word "cat" as character codes. -/
def wordCAT : List Nat := [99, 97, 116]

/-- The word "cats" as character codes. -/
def wordCATS : List Nat := [99, 97, 116, 115]

/-- The two-word dictionary of the cat/cats scenario. -/
def dictCATCATS : List (List Nat) := [wordCAT, wordCATS]

/-- The word "abcdef" as character codes (no proper prefix is a word). -/
def wordABCDEF : List Nat := [97, 98, 99, 100, 101, 102]

/-- The argument string "5x" as character codes. -/
def argFIVEX : List Nat := [53, 120]

/-! Basic facts about the child arrays. -/

@[simp]
theorem is_word_mk (w : Bool) (cs : List (Option Node)) : (Node.mk w cs).is_word = w := rfl

@[simp]
theorem children_mk (w : Bool) (cs : List (Option Node)) : (Node.mk w cs).children = cs := rfl

theorem childGet_childSet_self (l : List (Option Node)) (k : Nat) (v : Option Node)
    (h : k < l.length) : childGet (childSet l k v) k = v := by
  induction l generalizing k with
  | nil => simp at h
  | cons x xs ih =>
    cases k with
    | zero => rfl
    | succ k => exact ih k (by simpa using h)

theorem childGet_childSet_ne (l : List (Option Node)) (k j : Nat) (v : Option Node)
    (h : k ≠ j) : childGet (childSet l k v) j = childGet l j := by
  induction l generalizing k j with
  | nil => rfl
  | cons x xs ih =>
    cases k with
    | zero => cases j with
      | zero => exact absurd rfl h
      | succ j => rfl
    | succ k =>
      cases j with
      | zero => rfl
      | succ j => exact ih k j (fun hk => h (by rw [hk]))

theorem length_childSet (l : List (Option Node)) (k : Nat) (v : Option Node) :
    (childSet l k v).length = l.length := by
  induction l generalizing k with
  | nil => rfl
  | cons x xs ih =>
    cases k with
    | zero => rfl
    | succ k => simp [childSet, ih k]

theorem childSet_childSet (l : List (Option Node)) (k : Nat) (a b : Option Node) :
    childSet (childSet l k a) k b = childSet l k b := by
  induction l generalizing k with
  | nil => rfl
  | cons x xs ih =>
    cases k with
    | zero => rfl
    | succ k => simp [childSet, ih k]

theorem childGet_replicate (m k : Nat) : childGet (List.replicate m none) k = none := by
  induction m generalizing k with
  | zero => rfl
  | succ m ih =>
    cases k with
    | zero => rfl
    | succ k => simpa [List.replicate] using ih k

theorem childGet_lt_length (l : List (Option Node)) (k : Nat) (c : Node)
    (h : childGet l k = some c) : k < l.length := by
  induction l generalizing k with
  | nil => simp [childGet] at h
  | cons x xs ih =>
    cases k with
    | zero => simp
    | succ k => simpa using ih k h

theorem mem_of_childGet (l : List (Option Node)) (k : Nat) (c : Node)
    (h : childGet l k = some c) : some c ∈ l := by
  induction l generalizing k with
  | nil => simp [childGet] at h
  | cons x xs ih =>
    cases k with
    | zero => simp_all [childGet]
    | succ k => exact List.mem_cons_of_mem _ (ih k h)

/-! Facts about `childAt` and `setChild`. -/

theorem childAt_neg (n : Node) (i : Int) (h : i < 0) : childAt n i = none := by
  simp [childAt, not_le.mpr h]

theorem childAt_nonneg (n : Node) (i : Int) (h : 0 ≤ i) :
    childAt n i = childGet n.children i.toNat := by
  simp [childAt, h]

theorem childAt_some_nonneg (n : Node) (i : Int) (c : Node) (h : childAt n i = some c) :
    0 ≤ i := by
  by_contra hneg
  rw [childAt_neg n i (by omega)] at h
  exact Option.noConfusion h

theorem childAt_some_lt (n : Node) (i : Int) (c : Node) (h : childAt n i = some c) :
    i.toNat < n.children.length := by
  have h0 := childAt_some_nonneg n i c h
  rw [childAt_nonneg n i h0] at h
  exact childGet_lt_length _ _ _ h

theorem setChild_neg (n : Node) (i : Int) (c : Node) (h : i < 0) :
    setChild n i c = n := by
  simp [setChild, not_le.mpr h]

theorem is_word_setChild (n : Node) (i : Int) (c : Node) :
    (setChild n i c).is_word = n.is_word := by
  by_cases h : 0 ≤ i <;> simp [setChild, h]

theorem children_setChild (n : Node) (i : Int) (c : Node) (h : 0 ≤ i) :
    (setChild n i c).children = childSet n.children i.toNat (some c) := by
  simp [setChild, h]

theorem length_children_setChild (n : Node) (i : Int) (c : Node) :
    (setChild n i c).children.length = n.children.length := by
  by_cases h : 0 ≤ i
  · rw [children_setChild _ _ _ h]; exact length_childSet _ _ _
  · rw [setChild_neg _ _ _ (by omega)]

theorem childAt_setChild_self (n : Node) (i : Int) (c : Node) (h0 : 0 ≤ i)
    (h : i.toNat < n.children.length) : childAt (setChild n i c) i = some c := by
  rw [childAt_nonneg _ _ h0, children_setChild _ _ _ h0]
  exact childGet_childSet_self _ _ _ h

theorem childAt_setChild_ne (n : Node) (i j : Int) (c : Node) (hij : i ≠ j) :
    childAt (setChild n i c) j = childAt n j := by
  by_cases hi : 0 ≤ i
  · by_cases hj : 0 ≤ j
    · rw [childAt_nonneg _ _ hj, childAt_nonneg _ _ hj, children_setChild _ _ _ hi]
      exact childGet_childSet_ne _ _ _ _ (fun hk => hij (by omega))
    · rw [childAt_neg _ _ (by omega), childAt_neg _ _ (by omega)]
  · rw [setChild_neg _ _ _ (by omega)]

theorem setChild_setChild (n : Node) (i : Int) (a b : Node) :
    setChild (setChild n i a) i b = setChild n i b := by
  by_cases h : 0 ≤ i
  · cases n
    simp [setChild, h, childSet_childSet]
  · rw [setChild_neg _ _ _ (by omega), setChild_neg _ _ _ (by omega),
      setChild_neg _ _ _ (by omega)]

theorem is_word_setWordFlag (n : Node) : (setWordFlag n).is_word = true := by
  cases n; rfl

theorem children_setWordFlag (n : Node) : (setWordFlag n).children = n.children := by
  cases n; rfl

theorem childAt_setWordFlag (n : Node) (i : Int) :
    childAt (setWordFlag n) i = childAt n i := by
  simp [childAt, children_setWordFlag]

theorem childAt_emptyNode (i : Int) : childAt emptyNode i = none := by
  by_cases h : 0 ≤ i
  · rw [childAt_nonneg _ _ h]; exact childGet_replicate _ _
  · exact childAt_neg _ _ (by omega)

/-! Facts about `walk`. -/

@[simp]
theorem walk_nil (n : Node) : walk n [] = some n := rfl

theorem walk_cons (n : Node) (i : Int) (p : List Int) :
    walk n (i :: p) = match childAt n i with
      | some c => walk c p
      | none => none := rfl

theorem walk_cons_some (n c : Node) (i : Int) (p : List Int) (h : childAt n i = some c) :
    walk n (i :: p) = walk c p := by
  rw [walk_cons, h]

theorem walk_cons_none (n : Node) (i : Int) (p : List Int) (h : childAt n i = none) :
    walk n (i :: p) = none := by
  rw [walk_cons, h]

theorem walk_append (n : Node) (p q : List Int) :
    walk n (p ++ q) = (walk n p).bind (fun m => walk m q) := by
  induction p generalizing n with
  | nil => simp
  | cons i p ih =>
    cases h : childAt n i with
    | none => simp [walk_cons_none _ _ _ h]
    | some c => simp [walk_cons_some _ _ _ _ h, ih]

theorem walk_emptyNode (p : List Int) (n : Node) (h : walk emptyNode p = some n) :
    p = [] ∧ n = emptyNode := by
  cases p with
  | nil => exact ⟨rfl, by simpa using h.symm⟩
  | cons i rest =>
    rw [walk_cons_none _ _ _ (childAt_emptyNode i)] at h
    exact Option.noConfusion h

theorem walk_setWordFlag (n : Node) (p : List Int) :
    walk (setWordFlag n) p = if p = [] then some (setWordFlag n) else walk n p := by
  cases p with
  | nil => simp
  | cons i rest =>
    simp only [if_neg (List.cons_ne_nil i rest)]
    rw [walk_cons, walk_cons, childAt_setWordFlag]

theorem walk_cons_elim (n : Node) (i : Int) (rest : List Int) (m : Node)
    (h : walk n (i :: rest) = some m) :
    ∃ c, childAt n i = some c ∧ walk c rest = some m := by
  rw [walk_cons] at h
  cases hc : childAt n i with
  | none => rw [hc] at h; exact Option.noConfusion h
  | some c => rw [hc] at h; exact ⟨c, rfl, h⟩

theorem childSet_ge (l : List (Option Node)) (k : Nat) (v : Option Node)
    (h : l.length ≤ k) : childSet l k v = l := by
  induction l generalizing k with
  | nil => rfl
  | cons x xs ih =>
    cases k with
    | zero => simp at h
    | succ k => simp [childSet, ih k (by simpa using h)]

theorem childGet_ge (l : List (Option Node)) (k : Nat) (h : l.length ≤ k) :
    childGet l k = none := by
  induction l generalizing k with
  | nil => rfl
  | cons x xs ih =>
    cases k with
    | zero => simp at h
    | succ k => exact ih k (by simpa using h)

/-! Character arithmetic: alphabetic characters fold to lower case and give a
child index in range. -/

theorem isAlphaC_elim (c : Nat) (h : isAlphaC c = true) :
    (65 ≤ c ∧ c ≤ 90) ∨ (97 ≤ c ∧ c ≤ 122) := by
  simp only [isAlphaC, Bool.or_eq_true, Bool.and_eq_true, decide_eq_true_eq] at h
  exact h

theorem toLowerC_of_alpha (c : Nat) (h : isAlphaC c = true) :
    97 ≤ toLowerC c ∧ toLowerC c ≤ 122 := by
  rcases isAlphaC_elim c h with hu | hl
  · simp only [toLowerC, if_pos hu]; omega
  · have : ¬(65 ≤ c ∧ c ≤ 90) := by omega
    simp only [toLowerC, if_neg this]; omega

theorem toLowerC_ne_newline (c : Nat) (h : isAlphaC c = true) : toLowerC c ≠ 10 := by
  have := toLowerC_of_alpha c h
  omega

theorem charIndex_bound (c : Nat) (h : 97 ≤ c ∧ c ≤ 122) :
    0 ≤ charIndex c ∧ charIndex c < 26 := by
  simp only [charIndex]
  omega

theorem charIndex_alpha_bound (c : Nat) (h : isAlphaC c = true) :
    0 ≤ charIndex (toLowerC c) ∧ charIndex (toLowerC c) < 26 :=
  charIndex_bound _ (toLowerC_of_alpha c h)

theorem bound_wpath (w : List Nat) (h : AlphaWord w) : BoundPath (wpath w) := by
  intro i hi
  rcases List.mem_map.mp hi with ⟨c, hc, rfl⟩
  exact charIndex_alpha_bound c (h c hc)

/-! Well-formedness: every trie the program builds has 26-slot nodes. -/

theorem wf26_emptyNode : wf26 emptyNode := by
  intro p m h
  obtain ⟨hp, hm⟩ := walk_emptyNode p m h
  subst hm
  simp [emptyNode]

theorem wf26_sub (t : Node) (p : List Int) (m : Node) (ht : wf26 t)
    (h : walk t p = some m) : wf26 m := by
  intro q n hq
  exact ht (p ++ q) n (by rw [walk_append, h]; exact hq)

theorem wf26_root_length (t : Node) (ht : wf26 t) : t.children.length = CHARS :=
  ht [] t rfl

theorem wf26_setChild (n c : Node) (i : Int) (hn : wf26 n) (hc : wf26 c) :
    wf26 (setChild n i c) := by
  intro p m h
  cases p with
  | nil =>
    have hm : m = setChild n i c := by simpa using h.symm
    subst hm
    rw [length_children_setChild]
    exact wf26_root_length n hn
  | cons j rest =>
    obtain ⟨x, hx, hwx⟩ := walk_cons_elim _ _ _ _ h
    by_cases hij : i = j
    · subst hij
      by_cases hi0 : 0 ≤ i
      · by_cases hlen : i.toNat < n.children.length
        · rw [childAt_setChild_self n i c hi0 hlen] at hx
          have hxc : x = c := by simpa using hx.symm
          subst hxc
          exact hc rest m hwx
        · rw [childAt_nonneg _ _ hi0, children_setChild _ _ _ hi0,
            childSet_ge _ _ _ (by omega), childGet_ge _ _ (by omega)] at hx
          exact Option.noConfusion hx
      · rw [setChild_neg _ _ _ (by omega), childAt_neg _ _ (by omega)] at hx
        exact Option.noConfusion hx
    · rw [childAt_setChild_ne n i j c hij] at hx
      exact hn (j :: rest) m (by rw [walk_cons_some _ _ _ _ hx]; exact hwx)

theorem wf26_setWordFlag (n : Node) (hn : wf26 n) : wf26 (setWordFlag n) := by
  intro p m h
  rw [walk_setWordFlag] at h
  by_cases hp : p = []
  · rw [if_pos hp] at h
    have hm : m = setWordFlag n := by simpa using h.symm
    subst hm
    rw [children_setWordFlag]
    exact wf26_root_length n hn
  · rw [if_neg hp] at h
    exact hn p m h

theorem wf26_ensureChild (i : Int) (n : Node) (hn : wf26 n) : wf26 (ensureChild i n) := by
  unfold ensureChild
  cases hc : childAt n i with
  | some c => exact hn
  | none => exact wf26_setChild n emptyNode i hn wf26_emptyNode

theorem wf26_modifyAt (f : Node → Node) (hf : ∀ m, wf26 m → wf26 (f m))
    (p : List Int) (t : Node) (ht : wf26 t) : wf26 (modifyAt f t p) := by
  induction p generalizing t with
  | nil => exact hf t ht
  | cons i rest ih =>
    show wf26 (modifyAt f t (i :: rest))
    unfold modifyAt
    cases hc : childAt t i with
    | none => exact ht
    | some c =>
      exact wf26_setChild t _ i ht
        (ih c (wf26_sub t [i] c ht (by rw [walk_cons_some _ _ _ _ hc]; rfl)))

theorem wf26_insertW (q : List Int) (t : Node) (ht : wf26 t) : wf26 (insertW t q) := by
  induction q generalizing t with
  | nil => exact wf26_setWordFlag t ht
  | cons i rest ih =>
    show wf26 (insertW t (i :: rest))
    unfold insertW
    refine wf26_setChild t _ i ht (ih _ ?_)
    cases hc : childAt t i with
    | some c =>
      simpa [hc] using wf26_sub t [i] c ht (by rw [walk_cons_some _ _ _ _ hc]; rfl)
    | none => simpa [hc] using wf26_emptyNode

/-! The load loop on one newline-terminated word is the clean insertion. -/

theorem walk_modifyAt (f : Node → Node) (t : Node) (p : List Int) (m : Node)
    (h : walk t p = some m) : walk (modifyAt f t p) p = some (f m) := by
  induction p generalizing t with
  | nil =>
    have : t = m := by simpa using h
    subst this
    rfl
  | cons i rest ih =>
    obtain ⟨c, hc, hw⟩ := walk_cons_elim _ _ _ _ h
    have hi0 := childAt_some_nonneg _ _ _ hc
    have hlen := childAt_some_lt _ _ _ hc
    show walk (modifyAt f t (i :: rest)) (i :: rest) = some (f m)
    unfold modifyAt
    rw [hc]
    rw [walk_cons_some _ _ _ _ (childAt_setChild_self t i _ hi0 hlen)]
    exact ih c hw

theorem walk_modify_ensure_isSome (i : Int) (hi0 : 0 ≤ i) (hi : i < 26)
    (p : List Int) (t : Node) (ht : wf26 t) (m : Node) (h : walk t p = some m) :
    (walk (modifyAt (ensureChild i) t p) (p ++ [i])).isSome = true := by
  rw [walk_append, walk_modifyAt (ensureChild i) t p m h]
  have hm : wf26 m := wf26_sub t p m ht h
  show (walk (ensureChild i m) [i]).isSome = true
  unfold ensureChild
  cases hc : childAt m i with
  | some c => rw [walk_cons_some _ _ _ _ hc]; rfl
  | none =>
    have hlen : i.toNat < m.children.length := by
      rw [wf26_root_length m hm]; simp [CHARS]; omega
    rw [walk_cons_some _ _ _ _ (childAt_setChild_self m i emptyNode hi0 hlen)]
    rfl

theorem modifyAt_nil (f : Node → Node) (t : Node) : modifyAt f t [] = f t := rfl

theorem modifyAt_cons_some (f : Node → Node) (t : Node) (i : Int) (rest : List Int)
    (c : Node) (h : childAt t i = some c) :
    modifyAt f t (i :: rest) = setChild t i (modifyAt f c rest) := by
  conv_lhs => rw [modifyAt]
  rw [h]

theorem modifyAt_cons_none (f : Node → Node) (t : Node) (i : Int) (rest : List Int)
    (h : childAt t i = none) : modifyAt f t (i :: rest) = t := by
  conv_lhs => rw [modifyAt]
  rw [h]

theorem ensureChild_some (i : Int) (t c : Node) (h : childAt t i = some c) :
    ensureChild i t = t := by
  unfold ensureChild
  rw [h]

theorem ensureChild_none (i : Int) (t : Node) (h : childAt t i = none) :
    ensureChild i t = setChild t i emptyNode := by
  unfold ensureChild
  rw [h]

theorem modify_ensure_compose (g : Node → Node) (i : Int) (hi0 : 0 ≤ i) (hi : i < 26)
    (p : List Int) (t : Node) (ht : wf26 t) (m : Node) (h : walk t p = some m) :
    modifyAt g (modifyAt (ensureChild i) t p) (p ++ [i]) =
      modifyAt (fun n => setChild n i (g ((childAt n i).getD emptyNode))) t p := by
  induction p generalizing t with
  | nil =>
    show modifyAt g (ensureChild i t) [i] = setChild t i (g ((childAt t i).getD emptyNode))
    cases hc : childAt t i with
    | some c =>
      rw [ensureChild_some i t c hc, modifyAt_cons_some g t i [] c hc, modifyAt_nil]
      rfl
    | none =>
      have hlen : i.toNat < t.children.length := by
        rw [wf26_root_length t ht]; simp only [CHARS]; omega
      rw [ensureChild_none i t hc,
        modifyAt_cons_some g _ i [] emptyNode (childAt_setChild_self t i emptyNode hi0 hlen),
        modifyAt_nil, setChild_setChild]
      rfl
  | cons j rest ih =>
    obtain ⟨cj, hcj, hwj⟩ := walk_cons_elim _ _ _ _ h
    have hj0 := childAt_some_nonneg _ _ _ hcj
    have hjlen := childAt_some_lt _ _ _ hcj
    have hsub : wf26 cj := wf26_sub t [j] cj ht (by rw [walk_cons_some _ _ _ _ hcj]; rfl)
    rw [modifyAt_cons_some (ensureChild i) t j rest cj hcj]
    have hget : childAt (setChild t j (modifyAt (ensureChild i) cj rest)) j =
        some (modifyAt (ensureChild i) cj rest) :=
      childAt_setChild_self t j _ hj0 hjlen
    have hcons : (j :: rest) ++ [i] = j :: (rest ++ [i]) := rfl
    rw [hcons, modifyAt_cons_some g _ j (rest ++ [i]) _ hget, setChild_setChild,
      ih cj hsub hwj,
      modifyAt_cons_some (fun n => setChild n i (g ((childAt n i).getD emptyNode))) t j rest cj hcj]

theorem loadStep_newline (st : Node × List Int) (c0 : Nat) (h : toLowerC c0 = 10) :
    loadStep st c0 = (modifyAt setWordFlag st.1 st.2, []) := by
  simp [loadStep, h]

theorem loadStep_letter (st : Node × List Int) (c0 : Nat) (h : toLowerC c0 ≠ 10) :
    loadStep st c0 = (modifyAt (ensureChild (charIndex (toLowerC c0))) st.1 st.2,
      st.2 ++ [charIndex (toLowerC c0)]) := by
  simp [loadStep, h]

theorem insertW_nil (n : Node) : insertW n [] = setWordFlag n := by
  rw [insertW]

theorem insertW_cons (n : Node) (i : Int) (rest : List Int) :
    insertW n (i :: rest) = setChild n i (insertW ((childAt n i).getD emptyNode) rest) := by
  rw [insertW]

theorem foldl_loadStep_word (w : List Nat) (hw : AlphaWord w) :
    ∀ (t : Node) (p : List Int), wf26 t → ∀ m, walk t p = some m →
    List.foldl loadStep (t, p) (w ++ [10]) =
      (modifyAt (fun n => insertW n (wpath w)) t p, []) := by
  induction w with
  | nil =>
    intro t p ht m hm
    show List.foldl loadStep (t, p) [10] = _
    rw [List.foldl_cons, List.foldl_nil, loadStep_newline (t, p) 10 (by decide)]
    have hfun : (fun n : Node => insertW n (wpath [])) = setWordFlag := by
      funext n
      show insertW n [] = setWordFlag n
      exact insertW_nil n
    rw [hfun]
  | cons c w' ih =>
    intro t p ht m hm
    have hca : isAlphaC c = true := hw c (List.mem_cons_self c w')
    have hne := toLowerC_ne_newline c hca
    obtain ⟨hi0, hilt⟩ := charIndex_alpha_bound c hca
    have hw' : AlphaWord w' := fun d hd => hw d (List.mem_cons_of_mem c hd)
    show List.foldl loadStep (t, p) ((c :: w') ++ [10]) = _
    rw [List.cons_append, List.foldl_cons, loadStep_letter (t, p) c hne]
    have ht1 : wf26 (modifyAt (ensureChild (charIndex (toLowerC c))) t p) :=
      wf26_modifyAt _ (fun x hx => wf26_ensureChild _ x hx) p t ht
    have hs1 := walk_modify_ensure_isSome (charIndex (toLowerC c)) hi0 hilt p t ht m hm
    obtain ⟨m1, hm1⟩ := Option.isSome_iff_exists.mp hs1
    rw [ih hw' _ _ ht1 m1 hm1,
      modify_ensure_compose (fun n => insertW n (wpath w')) (charIndex (toLowerC c))
        hi0 hilt p t ht m hm]
    have hfun : (fun n : Node => setChild n (charIndex (toLowerC c))
        (insertW ((childAt n (charIndex (toLowerC c))).getD emptyNode) (wpath w'))) =
        (fun n : Node => insertW n (wpath (c :: w'))) := by
      funext n
      show _ = insertW n (charIndex (toLowerC c) :: wpath w')
      rw [insertW_cons]
    rw [hfun]

theorem load_encode_eq (ws : List (List Nat)) (hws : ∀ w ∈ ws, AlphaWord w) :
    load (encode ws) = buildW emptyNode (ws.map wpath) := by
  suffices hgen : ∀ t, wf26 t →
      List.foldl loadStep (t, []) (encode ws) = (buildW t (ws.map wpath), []) by
    have := hgen emptyNode wf26_emptyNode
    unfold load
    rw [this]
  induction ws with
  | nil => intro t ht; rfl
  | cons w ws' ih =>
    intro t ht
    have hw : AlphaWord w := hws w (List.mem_cons_self w ws')
    have hws' : ∀ v ∈ ws', AlphaWord v := fun v hv => hws v (List.mem_cons_of_mem w hv)
    have henc : encode (w :: ws') = (w ++ [10]) ++ encode ws' := by
      simp [encode]
    rw [henc, List.foldl_append, foldl_loadStep_word w hw t [] ht t rfl, modifyAt_nil,
      ih hws' (insertW t (wpath w)) (wf26_insertW _ t ht)]
    rfl

theorem wf26_load (ws : List (List Nat)) (hws : ∀ w ∈ ws, AlphaWord w) :
    wf26 (load (encode ws)) := by
  rw [load_encode_eq ws hws]
  suffices hgen : ∀ (qs : List (List Int)) (t : Node), wf26 t → wf26 (buildW t qs) by
    exact hgen _ emptyNode wf26_emptyNode
  intro qs
  induction qs with
  | nil => intro t ht; exact ht
  | cons q qs' ih => intro t ht; exact ih (insertW t q) (wf26_insertW q t ht)

/-! Characterizing the paths present in a built trie and its word flags. -/

theorem prefB_nil (q : List Int) : prefB [] q = true := rfl

theorem prefB_cons_nil (a : Int) (p : List Int) : prefB (a :: p) [] = false := rfl

theorem prefB_cons_cons (a b : Int) (p q : List Int) :
    prefB (a :: p) (b :: q) = (a == b && prefB p q) := rfl

theorem prefB_refl (p : List Int) : prefB p p = true := by
  induction p with
  | nil => rfl
  | cons a p ih => simp [prefB_cons_cons, ih]

theorem walk_emptyNode_isSome (p : List Int) :
    (walk emptyNode p).isSome = true ↔ p = [] := by
  cases p with
  | nil => simp
  | cons i rest =>
    rw [walk_cons_none _ _ _ (childAt_emptyNode i)]
    simp

theorem toNat_lt_of_wf26 (t : Node) (ht : wf26 t) (i : Int) (hi0 : 0 ≤ i) (hi : i < 26) :
    i.toNat < t.children.length := by
  rw [wf26_root_length t ht]
  simp only [CHARS]
  omega

theorem wf26_getD_child (t : Node) (ht : wf26 t) (i : Int) :
    wf26 ((childAt t i).getD emptyNode) := by
  cases hc : childAt t i with
  | some c =>
    simpa using wf26_sub t [i] c ht (by rw [walk_cons_some _ _ _ _ hc]; rfl)
  | none => simpa using wf26_emptyNode

theorem walk_insertW_isSome (q : List Int) (hq : BoundPath q) :
    ∀ (t : Node), wf26 t → ∀ (p : List Int),
    ((walk (insertW t q) p).isSome = true ↔ (walk t p).isSome = true ∨ prefB p q = true) := by
  induction q with
  | nil =>
    intro t ht p
    rw [insertW_nil, walk_setWordFlag]
    cases p with
    | nil => simp
    | cons j rest => simp [prefB_cons_nil]
  | cons i q' ih =>
    intro t ht p
    obtain ⟨hi0, hilt⟩ := hq i (List.mem_cons_self i q')
    have hq' : BoundPath q' := fun x hx => hq x (List.mem_cons_of_mem i hx)
    have hc0 : wf26 ((childAt t i).getD emptyNode) := wf26_getD_child t ht i
    rw [insertW_cons]
    cases p with
    | nil => simp [prefB_nil]
    | cons j rest =>
      by_cases hij : j = i
      · subst hij
        have hsc : childAt (setChild t j (insertW ((childAt t j).getD emptyNode) q')) j =
            some (insertW ((childAt t j).getD emptyNode) q') :=
          childAt_setChild_self t j _ hi0 (toNat_lt_of_wf26 t ht j hi0 hilt)
        rw [walk_cons_some _ _ _ _ hsc, prefB_cons_cons]
        rw [ih hq' _ hc0 rest]
        cases hc : childAt t j with
        | some c =>
          rw [walk_cons_some _ _ _ _ hc]
          simp [hc]
        | none =>
          rw [walk_cons_none _ _ _ hc]
          simp only [hc, Option.getD_none, Option.isSome_none, Bool.false_eq_true, false_or,
            beq_self_eq_true, Bool.true_and]
          cases rest with
          | nil => simp [prefB_nil]
          | cons r rs =>
            rw [walk_cons_none _ _ _ (childAt_emptyNode r)]
            simp
      · have hne : childAt (setChild t i (insertW ((childAt t i).getD emptyNode) q')) j =
            childAt t j := childAt_setChild_ne t i j _ (fun he => hij (by rw [he]))
        rw [walk_cons, hne, ← walk_cons, prefB_cons_cons]
        have : (j == i) = false := by simp [hij]
        simp [this]

theorem is_word_walk_insertW (q : List Int) (hq : BoundPath q) :
    ∀ (t : Node), wf26 t → ∀ (p : List Int) (n : Node),
    walk (insertW t q) p = some n →
    (n.is_word = true ↔ (∃ m, walk t p = some m ∧ m.is_word = true) ∨ p = q) := by
  induction q with
  | nil =>
    intro t ht p n hn
    rw [insertW_nil, walk_setWordFlag] at hn
    cases p with
    | nil =>
      rw [if_pos rfl] at hn
      have : n = setWordFlag t := by simpa using hn.symm
      subst this
      simp [is_word_setWordFlag]
    | cons j rest =>
      rw [if_neg (List.cons_ne_nil j rest)] at hn
      simp only [List.cons_ne_nil, or_false]
      constructor
      · intro hw
        exact ⟨n, hn, hw⟩
      · rintro ⟨m, hm, hw⟩
        rw [hn] at hm
        have : m = n := by simpa using hm.symm
        subst this
        exact hw
  | cons i q' ih =>
    intro t ht p n hn
    obtain ⟨hi0, hilt⟩ := hq i (List.mem_cons_self i q')
    have hq' : BoundPath q' := fun x hx => hq x (List.mem_cons_of_mem i hx)
    have hc0 : wf26 ((childAt t i).getD emptyNode) := wf26_getD_child t ht i
    rw [insertW_cons] at hn
    cases p with
    | nil =>
      have : n = setChild t i (insertW ((childAt t i).getD emptyNode) q') := by
        simpa using hn.symm
      subst this
      rw [is_word_setChild]
      simp only [List.nil_eq, reduceCtorEq, or_false]
      constructor
      · intro hw
        exact ⟨t, rfl, hw⟩
      · rintro ⟨m, hm, hw⟩
        have : m = t := by simpa using hm.symm
        subst this
        exact hw
    | cons j rest =>
      by_cases hij : j = i
      · subst hij
        have hsc : childAt (setChild t j (insertW ((childAt t j).getD emptyNode) q')) j =
            some (insertW ((childAt t j).getD emptyNode) q') :=
          childAt_setChild_self t j _ hi0 (toNat_lt_of_wf26 t ht j hi0 hilt)
        rw [walk_cons_some _ _ _ _ hsc] at hn
        rw [ih hq' _ hc0 rest n hn]
        have hpq : (j :: rest = j :: q') ↔ rest = q' := by simp
        rw [hpq]
        cases hc : childAt t j with
        | some c =>
          simp only [Option.getD_some]
          constructor
          · rintro (⟨m, hm, hw⟩ | hr)
            · exact Or.inl ⟨m, by rw [walk_cons_some _ _ _ _ hc]; exact hm, hw⟩
            · exact Or.inr hr
          · rintro (⟨m, hm, hw⟩ | hr)
            · rw [walk_cons_some _ _ _ _ hc] at hm
              exact Or.inl ⟨m, hm, hw⟩
            · exact Or.inr hr
        | none =>
          simp only [Option.getD_none]
          constructor
          · rintro (⟨m, hm, hw⟩ | hr)
            · obtain ⟨hrest, hme⟩ := walk_emptyNode rest m hm
              subst hme
              simp [emptyNode] at hw
            · exact Or.inr hr
          · rintro (⟨m, hm, hw⟩ | hr)
            · rw [walk_cons_none _ _ _ hc] at hm
              exact Option.noConfusion hm
            · exact Or.inr hr
      · have hne : childAt (setChild t i (insertW ((childAt t i).getD emptyNode) q')) j =
            childAt t j := childAt_setChild_ne t i j _ (fun he => hij (by rw [he]))
        rw [walk_cons, hne, ← walk_cons] at hn
        have hpq : j :: rest ≠ i :: q' := by
          intro he
          exact hij (by injection he with h1 h2)
        simp only [hpq, or_false]
        constructor
        · intro hw
          exact ⟨n, hn, hw⟩
        · rintro ⟨m, hm, hw⟩
          rw [hn] at hm
          have : m = n := by simpa using hm.symm
          subst this
          exact hw

theorem buildW_nil (t : Node) : buildW t [] = t := rfl

theorem buildW_cons (t : Node) (q : List Int) (qs : List (List Int)) :
    buildW t (q :: qs) = buildW (insertW t q) qs := rfl

theorem walk_buildW_isSome (qs : List (List Int)) (hqs : ∀ q ∈ qs, BoundPath q) :
    ∀ (t : Node), wf26 t → ∀ (p : List Int),
    ((walk (buildW t qs) p).isSome = true ↔
      (walk t p).isSome = true ∨ ∃ q ∈ qs, prefB p q = true) := by
  induction qs with
  | nil =>
    intro t ht p
    rw [buildW_nil]
    simp
  | cons q qs' ih =>
    intro t ht p
    have hb : BoundPath q := hqs q (List.mem_cons_self q qs')
    have hqs' : ∀ x ∈ qs', BoundPath x := fun x hx => hqs x (List.mem_cons_of_mem q hx)
    rw [buildW_cons, ih hqs' (insertW t q) (wf26_insertW q t ht) p,
      walk_insertW_isSome q hb t ht p]
    constructor
    · rintro ((hw | hp) | ⟨x, hx, hpx⟩)
      · exact Or.inl hw
      · exact Or.inr ⟨q, List.mem_cons_self q qs', hp⟩
      · exact Or.inr ⟨x, List.mem_cons_of_mem q hx, hpx⟩
    · rintro (hw | ⟨x, hx, hpx⟩)
      · exact Or.inl (Or.inl hw)
      · rcases List.mem_cons.mp hx with rfl | hx'
        · exact Or.inl (Or.inr hpx)
        · exact Or.inr ⟨x, hx', hpx⟩

theorem is_word_walk_buildW (qs : List (List Int)) (hqs : ∀ q ∈ qs, BoundPath q) :
    ∀ (t : Node), wf26 t → ∀ (p : List Int) (n : Node),
    walk (buildW t qs) p = some n →
    (n.is_word = true ↔
      (∃ m, walk t p = some m ∧ m.is_word = true) ∨ ∃ q ∈ qs, q = p) := by
  induction qs with
  | nil =>
    intro t ht p n hn
    rw [buildW_nil] at hn
    simp only [List.not_mem_nil, false_and, exists_false, or_false]
    constructor
    · intro hw
      exact ⟨n, hn, hw⟩
    · rintro ⟨m, hm, hw⟩
      rw [hn] at hm
      have : m = n := by simpa using hm.symm
      subst this
      exact hw
  | cons q qs' ih =>
    intro t ht p n hn
    have hb : BoundPath q := hqs q (List.mem_cons_self q qs')
    have hqs' : ∀ x ∈ qs', BoundPath x := fun x hx => hqs x (List.mem_cons_of_mem q hx)
    rw [buildW_cons] at hn
    rw [ih hqs' (insertW t q) (wf26_insertW q t ht) p n hn]
    have hmid : (∃ m, walk (insertW t q) p = some m ∧ m.is_word = true) ↔
        (∃ m, walk t p = some m ∧ m.is_word = true) ∨ p = q := by
      constructor
      · rintro ⟨m, hm, hw⟩
        exact (is_word_walk_insertW q hb t ht p m hm).mp hw
      · intro hr
        have hpres : (walk (insertW t q) p).isSome = true := by
          rw [walk_insertW_isSome q hb t ht p]
          rcases hr with ⟨m, hm, _⟩ | rfl
          · exact Or.inl (by rw [hm]; rfl)
          · exact Or.inr (prefB_refl _)
        obtain ⟨m, hm⟩ := Option.isSome_iff_exists.mp hpres
        exact ⟨m, hm, (is_word_walk_insertW q hb t ht p m hm).mpr hr⟩
    rw [hmid]
    constructor
    · rintro ((hw | hp) | ⟨x, hx, hpx⟩)
      · exact Or.inl hw
      · exact Or.inr ⟨q, List.mem_cons_self q qs', hp.symm⟩
      · exact Or.inr ⟨x, List.mem_cons_of_mem q hx, hpx⟩
    · rintro (hw | ⟨x, hx, hpx⟩)
      · exact Or.inl (Or.inl hw)
      · rcases List.mem_cons.mp hx with rfl | hx'
        · exact Or.inl (Or.inr hpx.symm)
        · exact Or.inr ⟨x, hx', hpx⟩

/-- Membership in the loaded trie: a path leads to a node exactly when it is
empty (the root) or a prefix of the index path of some word of the source. -/
theorem walk_load_isSome (ws : List (List Nat)) (hws : ∀ w ∈ ws, AlphaWord w)
    (p : List Int) :
    (walk (load (encode ws)) p).isSome = true ↔
      p = [] ∨ ∃ w ∈ ws, prefB p (wpath w) = true := by
  rw [load_encode_eq ws hws]
  have hqs : ∀ q ∈ ws.map wpath, BoundPath q := by
    intro q hq
    rcases List.mem_map.mp hq with ⟨w, hw, rfl⟩
    exact bound_wpath w (hws w hw)
  rw [walk_buildW_isSome (ws.map wpath) hqs emptyNode wf26_emptyNode p,
    walk_emptyNode_isSome]
  constructor
  · rintro (hp | ⟨q, hq, hpq⟩)
    · exact Or.inl hp
    · rcases List.mem_map.mp hq with ⟨w, hw, rfl⟩
      exact Or.inr ⟨w, hw, hpq⟩
  · rintro (hp | ⟨w, hw, hpw⟩)
    · exact Or.inl hp
    · exact Or.inr ⟨wpath w, List.mem_map.mpr ⟨w, hw, rfl⟩, hpw⟩

/-- Word flags in the loaded trie: the node at path `p` has `is_word` set
exactly when `p` is the full index path of some word of the source. -/
theorem is_word_load (ws : List (List Nat)) (hws : ∀ w ∈ ws, AlphaWord w)
    (p : List Int) (n : Node) (hn : walk (load (encode ws)) p = some n) :
    (n.is_word = true ↔ ∃ w ∈ ws, wpath w = p) := by
  rw [load_encode_eq ws hws] at hn
  have hqs : ∀ q ∈ ws.map wpath, BoundPath q := by
    intro q hq
    rcases List.mem_map.mp hq with ⟨w, hw, rfl⟩
    exact bound_wpath w (hws w hw)
  rw [is_word_walk_buildW (ws.map wpath) hqs emptyNode wf26_emptyNode p n hn]
  constructor
  · rintro (⟨m, hm, hw⟩ | ⟨q, hq, rfl⟩)
    · obtain ⟨hp, hme⟩ := walk_emptyNode p m hm
      subst hme
      simp [emptyNode] at hw
    · rcases List.mem_map.mp hq with ⟨w, hw, rfl⟩
      exact ⟨w, hw, rfl⟩
  · rintro ⟨w, hw, hpw⟩
    exact Or.inr ⟨wpath w, List.mem_map.mpr ⟨w, hw, rfl⟩, hpw⟩

/-! The gameplay loop. -/

theorem writeAt_length (l : List Nat) (c : Nat) : writeAt l l.length c = l ++ [c] := by
  simp [writeAt]

theorem step_of_none (N : Nat) (s : GameState) (c0 : Nat)
    (h : childAt s.letter (charIndex (toLowerC c0)) = none) :
    step N s c0 = .rejected s := by
  simp [step, h]

theorem step_of_some (N : Nat) (s : GameState) (c0 : Nat) (child : Node)
    (h : childAt s.letter (charIndex (toLowerC c0)) = some child) :
    step N s c0 =
      if child.is_word = true ∧ MIN_LENGTH ≤ s.letter_count then
        .gameOver s.curr_player (writeAt s.fragment s.letter_count (toLowerC c0))
      else
        .continued ⟨s.curr_player % N + 1, s.letter_count + 1,
          writeAt s.fragment s.letter_count (toLowerC c0), child⟩ := by
  simp [step, h]

theorem fragPath_append_one (frag : List Nat) (c : Nat) :
    fragPath (frag ++ [c]) = fragPath frag ++ [charIndex c] := by
  simp [fragPath]

theorem walk_fragPath_append (t : Node) (frag : List Nat) (c : Nat) (cur : Node)
    (hcur : walk t (fragPath frag) = some cur) :
    walk t (fragPath (frag ++ [c])) = childAt cur (charIndex c) := by
  rw [fragPath_append_one, walk_append, hcur]
  cases h : childAt cur (charIndex c) with
  | none => simp [walk_cons_none _ _ _ h]
  | some d => simp [walk_cons_some _ _ _ _ h]

theorem toLowerC_of_lower (c : Nat) (h1 : 97 ≤ c) : toLowerC c = c := by
  unfold toLowerC
  rw [if_neg (by omega)]

/-- Claim C2: after building from a newline-terminated alphabetic word
source, for every word W of the source, walking the trie from the root one
character of W at a time reaches, at W's last character, a node whose
`is_word` flag is true. -/
theorem claim_C2 (ws : List (List Nat)) (hws : ∀ w ∈ ws, AlphaWord w)
    (w : List Nat) (hw : w ∈ ws) :
    ∃ n, walk (load (encode ws)) (wpath w) = some n ∧ n.is_word = true := by
  have hsome : (walk (load (encode ws)) (wpath w)).isSome = true := by
    rw [walk_load_isSome ws hws]
    exact Or.inr ⟨w, hw, prefB_refl _⟩
  obtain ⟨n, hn⟩ := Option.isSome_iff_exists.mp hsome
  exact ⟨n, hn, (is_word_load ws hws _ n hn).mpr ⟨w, hw, rfl⟩⟩

/-- Witness for C2 at the dictionary cat, cats and the word cat. -/
theorem claim_C2_witness :
    ∃ n, walk (load (encode dictCATCATS)) (wpath wordCAT) = some n ∧ n.is_word = true :=
  claim_C2 dictCATCATS (by decide) wordCAT (by decide)

/-- Claim C3: at any cursor reached by matching a fragment, `advance` on a
lowercase letter yields the child exactly when some loaded word has
fragment+letter as a prefix; and walking any nonempty string that is not a
prefix of a loaded word from the root yields `none`. -/
theorem claim_C3 (ws : List (List Nat)) (hws : ∀ w ∈ ws, AlphaWord w) :
    (∀ (frag : List Nat) (cur : Node),
      walk (load (encode ws)) (fragPath frag) = some cur →
      ∀ letter : Nat, 97 ≤ letter → letter ≤ 122 →
      ((advance cur letter).isSome = true ↔
        ∃ w ∈ ws, prefB (fragPath (frag ++ [letter])) (wpath w) = true))
    ∧ (∀ P : List Nat, P ≠ [] →
        (¬ ∃ w ∈ ws, prefB (fragPath P) (wpath w) = true) →
        walk (load (encode ws)) (fragPath P) = none) := by
  constructor
  · intro frag cur hcur letter hlo hhi
    have hlow : toLowerC letter = letter := toLowerC_of_lower letter hlo
    have hadv : advance cur letter = childAt cur (charIndex letter) := by
      rw [advance, hlow]
    have hfull := walk_fragPath_append (load (encode ws)) frag letter cur hcur
    rw [hadv, ← hfull, walk_load_isSome ws hws]
    have hne : fragPath (frag ++ [letter]) ≠ [] := by
      rw [fragPath_append_one]
      simp
    simp [hne]
  · intro P hP hnp
    have hne : fragPath P ≠ [] := by
      simp only [fragPath, ne_eq, List.map_eq_nil_iff]
      exact hP
    have : ¬ (walk (load (encode ws)) (fragPath P)).isSome = true := by
      rw [walk_load_isSome ws hws]
      rintro (h | h)
      · exact hne h
      · exact hnp h
    simpa [Option.not_isSome_iff_eq_none] using this

/-- Witness for C3: at the root of the cat/cats trie, advancing on the
letter d fails because no word starts with d, and walking the string d from
the root yields `none`. -/
theorem claim_C3_witness :
    ((advance (load (encode dictCATCATS)) 100).isSome = true ↔
      ∃ w ∈ dictCATCATS, prefB (fragPath ([] ++ [100])) (wpath w) = true)
    ∧ walk (load (encode dictCATCATS)) (fragPath [100]) = none :=
  ⟨(claim_C3 dictCATCATS (by decide)).1 [] _ rfl 100 (by decide) (by decide),
   (claim_C3 dictCATCATS (by decide)).2 [100] (by decide) (by decide)⟩

/-- Claim C8: building from the empty source yields a root with all 26 child
slots empty; and when the source has no empty word, the root's `is_word`
flag (the `is_complete_word` of the root) is false. -/
theorem claim_C8 :
    (load [] = emptyNode ∧ (load []).children = List.replicate 26 none ∧
      ∀ i : Int, childAt (load []) i = none)
    ∧ (∀ ws : List (List Nat), (∀ w ∈ ws, AlphaWord w) → (∀ w ∈ ws, w ≠ []) →
        is_complete_word (load (encode ws)) = false) := by
  constructor
  · refine ⟨rfl, rfl, ?_⟩
    intro i
    exact childAt_emptyNode i
  · intro ws hws hne
    have hw := is_word_load ws hws [] (load (encode ws)) rfl
    rw [is_complete_word]
    by_contra hcontra
    have : (load (encode ws)).is_word = true := by
      cases hb : (load (encode ws)).is_word
      · exact absurd hb hcontra
      · rfl
    obtain ⟨w, hwmem, hwp⟩ := hw.mp this
    have : w = [] := by
      have := hwp
      simpa [wpath] using this
    exact hne w hwmem this

/-- Witness for C8 at the cat/cats dictionary. -/
theorem claim_C8_witness : is_complete_word (load (encode dictCATCATS)) = false :=
  claim_C8.2 dictCATCATS (by decide) (by decide)

/-- Claim C4: when a letter is rejected (`advance` yields `none`), the step
leaves the entire game state unchanged, so the same player retries. -/
theorem claim_C4 :
    ∀ (N : Nat) (s : GameState) (c0 : Nat),
      (step N s c0 = .rejected s ↔ advance s.letter c0 = none)
      ∧ (∀ s', step N s c0 = .rejected s' → s' = s) := by
  intro N s c0
  have hadv : advance s.letter c0 = childAt s.letter (charIndex (toLowerC c0)) := rfl
  cases hc : childAt s.letter (charIndex (toLowerC c0)) with
  | none =>
    rw [hadv, hc]
    refine ⟨⟨fun _ => rfl, fun _ => step_of_none N s c0 hc⟩, ?_⟩
    intro s' hs'
    rw [step_of_none N s c0 hc] at hs'
    injection hs' with h
    exact h.symm
  | some child =>
    rw [hadv, hc]
    have hstep := step_of_some N s c0 child hc
    constructor
    · constructor
      · intro h
        rw [hstep] at h
        by_cases hcond : child.is_word = true ∧ MIN_LENGTH ≤ s.letter_count
        · rw [if_pos hcond] at h
          exact StepResult.noConfusion h
        · rw [if_neg hcond] at h
          exact StepResult.noConfusion h
      · intro h
        exact Option.noConfusion h
    · intro s' hs'
      rw [hstep] at hs'
      by_cases hcond : child.is_word = true ∧ MIN_LENGTH ≤ s.letter_count
      · rw [if_pos hcond] at hs'
        exact StepResult.noConfusion hs'
      · rw [if_neg hcond] at hs'
        exact StepResult.noConfusion hs'

/-- Witness for C4: in the cat/cats game the letter z is rejected at the
root and the state is unchanged. -/
theorem claim_C4_witness :
    step 2 (initState (load (encode dictCATCATS))) 122 =
      .rejected (initState (load (encode dictCATCATS))) :=
  (claim_C4 2 (initState (load (encode dictCATCATS))) 122).1.mpr rfl

/-- Claim C5: every valid non-terminal letter replaces the player index p by
(p mod N) + 1, and with N = 3 the acting players of five consecutive valid
non-terminal letters starting from player 1 are 1, 2, 3, 1, 2. -/
theorem claim_C5 :
    (∀ (N : Nat) (s : GameState) (c0 : Nat) (child : Node),
      advance s.letter c0 = some child →
      ¬(child.is_word = true ∧ MIN_LENGTH ≤ s.letter_count) →
      step N s c0 = .continued ⟨s.curr_player % N + 1, s.letter_count + 1,
        writeAt s.fragment s.letter_count (toLowerC c0), child⟩)
    ∧ turnSeq 3 (initState (load (encode [wordABCDEF]))) [97, 98, 99, 100, 101] =
        [1, 2, 3, 1, 2] := by
  constructor
  · intro N s c0 child hadv hcond
    have hc : childAt s.letter (charIndex (toLowerC c0)) = some child := hadv
    rw [step_of_some N s c0 child hc, if_neg hcond]
  · rfl

/-- Witness for C5: the first letter of the cat/cats game, played by player
1 of 2, hands the turn to player 2 = (1 mod 2) + 1. -/
theorem claim_C5_witness :
    ∃ child, step 2 (initState (load (encode dictCATCATS))) 99 =
      .continued ⟨1 % 2 + 1, 0 + 1, writeAt [] 0 (toLowerC 99), child⟩ :=
  ⟨_, claim_C5.1 2 (initState (load (encode dictCATCATS))) 99 _ rfl (by decide)⟩

/-- Claim C9: the gameplay-loop invariant: initially, and after both a
rejected and an accepted (continued) letter, the cursor is the node obtained
by walking the fragment from the root and `letter_count` is the fragment's
length. -/
theorem claim_C9 :
    ∀ (t : Node), Inv t (initState t) ∧
      (∀ (N : Nat) (s : GameState) (c0 : Nat), Inv t s →
        (∀ s', step N s c0 = .rejected s' → Inv t s')
        ∧ (∀ s', step N s c0 = .continued s' → Inv t s')) := by
  intro t
  refine ⟨⟨rfl, rfl⟩, ?_⟩
  intro N s c0 hInv
  cases hc : childAt s.letter (charIndex (toLowerC c0)) with
  | none =>
    have hstep := step_of_none N s c0 hc
    constructor
    · intro s' hs'
      rw [hstep] at hs'
      injection hs' with h
      rw [← h]
      exact hInv
    · intro s' hs'
      rw [hstep] at hs'
      exact StepResult.noConfusion hs'
  | some child =>
    have hstep := step_of_some N s c0 child hc
    by_cases hcond : child.is_word = true ∧ MIN_LENGTH ≤ s.letter_count
    · rw [if_pos hcond] at hstep
      constructor
      · intro s' hs'
        rw [hstep] at hs'
        exact StepResult.noConfusion hs'
      · intro s' hs'
        rw [hstep] at hs'
        exact StepResult.noConfusion hs'
    · rw [if_neg hcond] at hstep
      constructor
      · intro s' hs'
        rw [hstep] at hs'
        exact StepResult.noConfusion hs'
      · intro s' hs'
        rw [hstep] at hs'
        injection hs' with h
        subst h
        have hfrag : writeAt s.fragment s.letter_count (toLowerC c0) =
            s.fragment ++ [toLowerC c0] := by
          rw [hInv.2, writeAt_length]
        constructor
        · show walk t (fragPath (writeAt s.fragment s.letter_count (toLowerC c0))) = some child
          rw [hfrag, walk_fragPath_append t s.fragment (toLowerC c0) s.letter hInv.1, hc]
        · show s.letter_count + 1 = (writeAt s.fragment s.letter_count (toLowerC c0)).length
          rw [hfrag, List.length_append, hInv.2]
          rfl

/-- Witness for C9: the invariant holds initially for the cat/cats trie and
is carried across the accepted first letter c. -/
theorem claim_C9_witness :
    ∃ s', step 2 (initState (load (encode dictCATCATS))) 99 = .continued s'
      ∧ Inv (load (encode dictCATCATS)) s' :=
  ⟨_, rfl,
    ((claim_C9 (load (encode dictCATCATS))).2 2 (initState (load (encode dictCATCATS))) 99
      ⟨rfl, rfl⟩).2 _ rfl⟩

/-- Claim C1: under the loop invariant, a step ends the game exactly when
the just-extended fragment is the full index path of a dictionary word and
its new length strictly exceeds MIN_LENGTH = 3, and the announced loser is
the player who typed the completing letter; concretely, on the dictionary
cat, cats with two players, playing c, a, t does not end the game while
playing c, a, t, s ends it with player 2 (who typed the 4th letter) losing
on the word cats. -/
theorem claim_C1 :
    (∀ (ws : List (List Nat)), (∀ w ∈ ws, AlphaWord w) →
      ∀ (N : Nat) (s : GameState) (c0 : Nat), Inv (load (encode ws)) s →
        ((∃ p wd, step N s c0 = .gameOver p wd) ↔
          ((∃ w ∈ ws, wpath w = fragPath (s.fragment ++ [toLowerC c0])) ∧
            MIN_LENGTH < (s.fragment ++ [toLowerC c0]).length))
        ∧ (∀ p wd, step N s c0 = .gameOver p wd →
            p = s.curr_player ∧ wd = s.fragment ++ [toLowerC c0]))
    ∧ (∃ s', runGame 2 (initState (load (encode dictCATCATS))) wordCAT = .inl s')
    ∧ runGame 2 (initState (load (encode dictCATCATS))) wordCATS = .inr (2, wordCATS) := by
  refine ⟨?_, ⟨_, rfl⟩, rfl⟩
  intro ws hws N s c0 hInv
  have hfull := walk_fragPath_append (load (encode ws)) s.fragment (toLowerC c0)
    s.letter hInv.1
  have hlen : (s.fragment ++ [toLowerC c0]).length = s.letter_count + 1 := by
    rw [List.length_append, hInv.2]
    rfl
  cases hc : childAt s.letter (charIndex (toLowerC c0)) with
  | none =>
    have hstep := step_of_none N s c0 hc
    refine ⟨⟨?_, ?_⟩, ?_⟩
    · rintro ⟨p, wd, h⟩
      rw [hstep] at h
      exact StepResult.noConfusion h
    · rintro ⟨⟨w, hw, hwp⟩, _⟩
      exfalso
      have hsome : (walk (load (encode ws))
          (fragPath (s.fragment ++ [toLowerC c0]))).isSome = true := by
        rw [walk_load_isSome ws hws]
        exact Or.inr ⟨w, hw, by rw [← hwp]; exact prefB_refl _⟩
      rw [hfull, hc] at hsome
      exact Bool.noConfusion hsome
    · intro p wd h
      rw [hstep] at h
      exact StepResult.noConfusion h
  | some child =>
    have hstep := step_of_some N s c0 child hc
    have hword : child.is_word = true ↔
        ∃ w ∈ ws, wpath w = fragPath (s.fragment ++ [toLowerC c0]) :=
      is_word_load ws hws _ child (by rw [hfull]; exact hc)
    have hcount : MIN_LENGTH ≤ s.letter_count ↔
        MIN_LENGTH < (s.fragment ++ [toLowerC c0]).length := by
      rw [hlen]
      omega
    have hwd : writeAt s.fragment s.letter_count (toLowerC c0) =
        s.fragment ++ [toLowerC c0] := by
      rw [hInv.2, writeAt_length]
    by_cases hcond : child.is_word = true ∧ MIN_LENGTH ≤ s.letter_count
    · rw [if_pos hcond] at hstep
      refine ⟨⟨?_, ?_⟩, ?_⟩
      · intro _
        exact ⟨hword.mp hcond.1, hcount.mp hcond.2⟩
      · intro _
        exact ⟨s.curr_player, _, hstep⟩
      · intro p wd h
        rw [hstep] at h
        injection h with h1 h2
        exact ⟨h1.symm, by rw [← h2, hwd]⟩
    · rw [if_neg hcond] at hstep
      refine ⟨⟨?_, ?_⟩, ?_⟩
      · rintro ⟨p, wd, h⟩
        rw [hstep] at h
        exact StepResult.noConfusion h
      · rintro ⟨hw, hl⟩
        exact absurd ⟨hword.mpr hw, hcount.mpr hl⟩ hcond
      · intro p wd h
        rw [hstep] at h
        exact StepResult.noConfusion h

/-- Witness for C1: the game-over characterization instantiated at the
cat/cats trie, the initial state and the letter c. -/
theorem claim_C1_witness :
    (∃ p wd, step 2 (initState (load (encode dictCATCATS))) 99 = .gameOver p wd) ↔
      ((∃ w ∈ dictCATCATS, wpath w =
          fragPath ((initState (load (encode dictCATCATS))).fragment ++ [toLowerC 99])) ∧
        MIN_LENGTH <
          ((initState (load (encode dictCATCATS))).fragment ++ [toLowerC 99]).length) :=
  (claim_C1.1 dictCATCATS (by decide) 2 (initState (load (encode dictCATCATS))) 99
    ⟨rfl, rfl⟩).1

/-- Claim C6 (amended): exit codes are 0 on success, 1 on wrong argument
count, 2 when `atoi(argv[1])` parses to a value below 2 (in particular for
every fully non-numeric argument, which parses to 0), and 3 when the
dictionary cannot be loaded; teardown always succeeds, so the exit-4 branch
never fires. -/
theorem claim_C6_amended :
    (∀ (args : List (List Nat)) (dict : Option (List Nat)) (stdin : List Nat),
      args.length ≠ 2 → ghostMain args dict stdin = some 1)
    ∧ (∀ (prog arg : List Nat) (dict : Option (List Nat)) (stdin : List Nat),
        atoiC arg < 2 → ghostMain [prog, arg] dict stdin = some 2)
    ∧ (∀ (prog arg : List Nat) (stdin : List Nat),
        2 ≤ atoiC arg → ghostMain [prog, arg] none stdin = some 3)
    ∧ (∀ (prog arg dchars stdin : List Nat) (pw : Nat × List Nat),
        2 ≤ atoiC arg →
        runGame (atoiC arg).toNat (initState (load dchars)) stdin = .inr pw →
        ghostMain [prog, arg] (some dchars) stdin = some 0) := by
  refine ⟨?_, ?_, ?_, ?_⟩
  · intro args dict stdin h
    cases args with
    | nil => rfl
    | cons a rest =>
      cases rest with
      | nil => rfl
      | cons b rest2 =>
        cases rest2 with
        | nil => exact absurd rfl h
        | cons d rest3 => rfl
  · intro prog arg dict stdin h
    simp only [ghostMain]
    rw [if_pos h]
  · intro prog arg stdin h
    simp only [ghostMain]
    rw [if_neg (not_lt.mpr h)]
  · intro prog arg dchars stdin pw h hrun
    simp only [ghostMain]
    rw [if_neg (not_lt.mpr h), hrun]
    rfl

/-- Counterexample for C6 as stated: the argument 5x is not an integer, yet
the process accepts it (atoi yields 5) and exits 0 after a finished game
rather than exiting 2. -/
theorem claim_C6_cex :
    isIntegerArg argFIVEX = false
    ∧ ghostMain [[], argFIVEX] (some (encode [wordCATS])) wordCATS = some 0
    ∧ ¬ ghostMain [[], argFIVEX] (some (encode [wordCATS])) wordCATS = some 2 := by
  refine ⟨rfl, rfl, ?_⟩
  intro h
  have h0 : ghostMain [[], argFIVEX] (some (encode [wordCATS])) wordCATS = some 0 := rfl
  rw [h0] at h
  injection h with h2
  exact Nat.noConfusion h2

/-- Witness for C6 (amended): concrete runs hitting exit codes 1, 2, 3 and
0. -/
theorem claim_C6_witness :
    ghostMain [[]] none [] = some 1
    ∧ ghostMain [[], [120]] none [] = some 2
    ∧ ghostMain [[], [51]] none [] = some 3
    ∧ ghostMain [[], [50]] (some (encode [wordCATS])) wordCATS = some 0 :=
  ⟨claim_C6_amended.1 [[]] none [] (by decide),
   claim_C6_amended.2.1 [] [120] none [] (by decide),
   claim_C6_amended.2.2.1 [] [51] [] (by decide),
   claim_C6_amended.2.2.2 [] [50] (encode [wordCATS]) wordCATS (2, wordCATS)
     (by decide) rfl⟩

/-! Teardown: the addresses freed by `freeNode` and `unload`. -/

theorem freedBy_mk (w : Bool) (cs : List (Option Node)) :
    freedBy (Node.mk w cs) = freedChildren 0 cs := by
  rw [freedBy]

theorem freedChildren_nil (i : Int) : freedChildren i [] = [] := by
  rw [freedChildren]

theorem freedChildren_none (i : Int) (rest : List (Option Node)) :
    freedChildren i (none :: rest) = freedChildren (i+1) rest := by
  rw [freedChildren]

theorem freedChildren_some (i : Int) (c : Node) (rest : List (Option Node)) :
    freedChildren i (some c :: rest) =
      ((freedBy c).map (fun p => i :: p) ++ [[i]]) ++ freedChildren (i+1) rest := by
  rw [freedChildren]

theorem sizeOf_lt_node (w : Bool) (cs : List (Option Node)) (c : Node)
    (h : some c ∈ cs) : sizeOf c < sizeOf (Node.mk w cs) := by
  have h1 : sizeOf (some c) < sizeOf cs := List.sizeOf_lt_of_mem h
  have h2 : sizeOf (some c) = 1 + sizeOf c := by simp
  have h3 : sizeOf (Node.mk w cs) = 1 + sizeOf w + sizeOf cs := by simp
  omega

theorem freedChildren_mem (cs : List (Option Node))
    (IH : ∀ c, some c ∈ cs →
      ∀ p, (p ∈ freedBy c ↔ (p ≠ [] ∧ (walk c p).isSome = true))) :
    ∀ (i0 : Int) (p : List Int),
      (p ∈ freedChildren i0 cs ↔
        ∃ (k : Nat) (c : Node) (q : List Int), childGet cs k = some c ∧
          p = (i0 + (k : Int)) :: q ∧ (walk c q).isSome = true) := by
  induction cs with
  | nil =>
    intro i0 p
    rw [freedChildren_nil]
    simp [childGet]
  | cons x rest ihl =>
    have IH' : ∀ c, some c ∈ rest →
        ∀ p, (p ∈ freedBy c ↔ (p ≠ [] ∧ (walk c p).isSome = true)) :=
      fun c hc => IH c (List.mem_cons_of_mem x hc)
    intro i0 p
    cases x with
    | none =>
      rw [freedChildren_none, ihl IH' (i0+1) p]
      constructor
      · rintro ⟨k, c, q, hg, hp, hwq⟩
        refine ⟨k+1, c, q, hg, ?_, hwq⟩
        rw [hp]
        congr 1
        omega
      · rintro ⟨k, c, q, hg, hp, hwq⟩
        cases k with
        | zero => exact Option.noConfusion hg
        | succ k =>
          refine ⟨k, c, q, hg, ?_, hwq⟩
          rw [hp]
          congr 1
          omega
    | some c0 =>
      have hc0 : some c0 ∈ some c0 :: rest := List.mem_cons_self _ _
      rw [freedChildren_some]
      constructor
      · intro hp
        rcases List.mem_append.mp hp with hp1 | hp2
        · rcases List.mem_append.mp hp1 with hpm | hps
          · rcases List.mem_map.mp hpm with ⟨q, hq, rfl⟩
            obtain ⟨hqne, hwq⟩ := (IH c0 hc0 q).mp hq
            exact ⟨0, c0, q, rfl, by simp, hwq⟩
          · have hpe : p = [i0] := by simpa using hps
            exact ⟨0, c0, [], rfl, by simp [hpe], rfl⟩
        · obtain ⟨k, c, q, hg, hp', hwq⟩ := (ihl IH' (i0+1) p).mp hp2
          refine ⟨k+1, c, q, hg, ?_, hwq⟩
          rw [hp']
          congr 1
          omega
      · rintro ⟨k, c, q, hg, rfl, hwq⟩
        cases k with
        | zero =>
          have hcc : c0 = c := by
            injection hg
          subst hcc
          cases q with
          | nil =>
            apply List.mem_append.mpr
            left
            apply List.mem_append.mpr
            right
            simp
          | cons a as =>
            apply List.mem_append.mpr
            left
            apply List.mem_append.mpr
            left
            apply List.mem_map.mpr
            refine ⟨a :: as, (IH c0 hc0 (a :: as)).mpr ⟨List.cons_ne_nil a as, hwq⟩, ?_⟩
            simp
        | succ k =>
          apply List.mem_append.mpr
          right
          rw [ihl IH' (i0+1)]
          refine ⟨k, c, q, hg, ?_, hwq⟩
          congr 1
          omega

theorem freedChildren_head (cs : List (Option Node)) :
    ∀ (i0 : Int) (p : List Int), p ∈ freedChildren i0 cs →
      ∃ j q, p = j :: q ∧ i0 ≤ j := by
  induction cs with
  | nil =>
    intro i0 p hp
    rw [freedChildren_nil] at hp
    exact absurd hp (List.not_mem_nil p)
  | cons x rest ihl =>
    intro i0 p hp
    cases x with
    | none =>
      rw [freedChildren_none] at hp
      obtain ⟨j, q, rfl, hj⟩ := ihl (i0+1) p hp
      exact ⟨j, q, rfl, by omega⟩
    | some c0 =>
      rw [freedChildren_some] at hp
      rcases List.mem_append.mp hp with hp1 | hp2
      · rcases List.mem_append.mp hp1 with hpm | hps
        · rcases List.mem_map.mp hpm with ⟨q, hq, rfl⟩
          exact ⟨i0, q, rfl, le_refl i0⟩
        · have hpe : p = [i0] := by simpa using hps
          exact ⟨i0, [], hpe, le_refl i0⟩
      · obtain ⟨j, q, rfl, hj⟩ := ihl (i0+1) p hp2
        exact ⟨j, q, rfl, by omega⟩

theorem freedChildren_nodup (cs : List (Option Node))
    (IHd : ∀ c, some c ∈ cs → (freedBy c).Nodup)
    (IHne : ∀ c, some c ∈ cs → ∀ p ∈ freedBy c, p ≠ []) :
    ∀ i0 : Int, (freedChildren i0 cs).Nodup := by
  induction cs with
  | nil =>
    intro i0
    rw [freedChildren_nil]
    exact List.nodup_nil
  | cons x rest ihl =>
    have IHd' : ∀ c, some c ∈ rest → (freedBy c).Nodup :=
      fun c hc => IHd c (List.mem_cons_of_mem x hc)
    have IHne' : ∀ c, some c ∈ rest → ∀ p ∈ freedBy c, p ≠ [] :=
      fun c hc => IHne c (List.mem_cons_of_mem x hc)
    intro i0
    cases x with
    | none =>
      rw [freedChildren_none]
      exact ihl IHd' IHne' (i0+1)
    | some c0 =>
      have hc0 : some c0 ∈ some c0 :: rest := List.mem_cons_self _ _
      rw [freedChildren_some]
      refine List.nodup_append.mpr ⟨List.nodup_append.mpr ⟨?_, by simp, ?_⟩,
        ihl IHd' IHne' (i0+1), ?_⟩
      · refine (IHd c0 hc0).map ?_
        intro p q h
        injection h
      · intro a ha hb
        rcases List.mem_map.mp ha with ⟨q, hq, rfl⟩
        have he : i0 :: q = [i0] := by simpa using hb
        have hq0 : q = [] := by injection he
        exact IHne c0 hc0 q hq hq0
      · intro a ha hb
        obtain ⟨j, q, rfl, hj⟩ := freedChildren_head rest (i0+1) a hb
        rcases List.mem_append.mp ha with ham | has
        · rcases List.mem_map.mp ham with ⟨q', hq', he⟩
          have : i0 = j := by injection he with h1 h2
          omega
        · have he : (j :: q) = [i0] := by simpa using has
          have : j = i0 := by injection he with h1 h2
          omega

theorem freedBy_char : ∀ (n : Node),
    (freedBy n).Nodup ∧ (∀ p, p ∈ freedBy n ↔ (p ≠ [] ∧ (walk n p).isSome = true)) := by
  have main : ∀ (k : Nat) (n : Node), sizeOf n ≤ k →
      (freedBy n).Nodup ∧
        (∀ p, p ∈ freedBy n ↔ (p ≠ [] ∧ (walk n p).isSome = true)) := by
    intro k
    induction k with
    | zero =>
      intro n hle
      exfalso
      cases n with
      | mk w cs =>
        have hsz : sizeOf (Node.mk w cs) = 1 + sizeOf w + sizeOf cs := by simp
        omega
    | succ k ih =>
      intro n hle
      cases n with
      | mk w cs =>
        have hszn : sizeOf (Node.mk w cs) = 1 + sizeOf w + sizeOf cs := by simp
        have hsz : ∀ c, some c ∈ cs → sizeOf c ≤ k := by
          intro c hc
          have := sizeOf_lt_node w cs c hc
          omega
        have IHfull : ∀ c, some c ∈ cs →
            (freedBy c).Nodup ∧
              (∀ p, p ∈ freedBy c ↔ (p ≠ [] ∧ (walk c p).isSome = true)) :=
          fun c hc => ih c (hsz c hc)
        constructor
        · rw [freedBy_mk]
          exact freedChildren_nodup cs (fun c hc => (IHfull c hc).1)
            (fun c hc p hp => (((IHfull c hc).2 p).mp hp).1) 0
        · intro p
          rw [freedBy_mk, freedChildren_mem cs (fun c hc => (IHfull c hc).2) 0 p]
          constructor
          · rintro ⟨kk, c, q, hg, rfl, hwq⟩
            refine ⟨by simp, ?_⟩
            have hca : childAt (Node.mk w cs) ((0:Int) + kk) = some c := by
              rw [childAt_nonneg _ _ (by omega)]
              have ht : ((0:Int) + (kk:Int)).toNat = kk := by omega
              rw [children_mk, ht]
              exact hg
            rw [walk_cons_some _ _ _ _ hca]
            exact hwq
          · rintro ⟨hne, hsome⟩
            cases p with
            | nil => exact absurd rfl hne
            | cons j q =>
              obtain ⟨m, hm⟩ := Option.isSome_iff_exists.mp hsome
              obtain ⟨c, hcj, hwq⟩ := walk_cons_elim _ _ _ _ hm
              have hj0 : 0 ≤ j := childAt_some_nonneg _ _ _ hcj
              refine ⟨j.toNat, c, q, ?_, ?_, by rw [hwq]; rfl⟩
              · rw [childAt_nonneg _ _ hj0, children_mk] at hcj
                exact hcj
              · congr 1
                omega
  intro n
  exact main (sizeOf n) n (le_refl _)

/-- Claim C7: `freeNode` releases exactly the proper descendants of its
argument, each exactly once, and `unload` additionally releases the root:
together every node reachable from the root, including the root, exactly
once. -/
theorem claim_C7 : ∀ n : Node,
    ((freedBy n).Nodup ∧ ∀ p, p ∈ freedBy n ↔ (p ≠ [] ∧ (walk n p).isSome = true))
    ∧ ((unloadFrees n).Nodup ∧ ∀ p, p ∈ unloadFrees n ↔ (walk n p).isSome = true) := by
  intro n
  obtain ⟨hnd, hmem⟩ := freedBy_char n
  refine ⟨⟨hnd, hmem⟩, ?_, ?_⟩
  · rw [unloadFrees, List.nodup_append]
    refine ⟨hnd, by simp, ?_⟩
    intro a ha hb
    have hae : a = [] := by simpa using hb
    exact ((hmem a).mp ha).1 hae
  · intro p
    rw [unloadFrees, List.mem_append]
    constructor
    · rintro (hp | hp)
      · exact ((hmem p).mp hp).2
      · have hpe : p = [] := by simpa using hp
        subst hpe
        rfl
    · intro hs
      by_cases hp : p = []
      · right
        simp [hp]
      · left
        exact (hmem p).mpr ⟨hp, hs⟩

/-- Counterexample for C10 as stated: the source consisting of the single
word a satisfies the precondition (alphabetic characters and newline
terminators), yet the index computed by load's loop for the newline is -87,
outside 0..25. -/
theorem claim_C10_cex :
    (∀ c ∈ encode [[97]], isAlphaC c = true ∨ c = 10)
    ∧ loadIndices (encode [[97]]) = [0, -87]
    ∧ ¬(∀ i ∈ loadIndices (encode [[97]]), 0 ≤ i ∧ i < 26) := by
  refine ⟨by decide, by decide, ?_⟩
  intro h
  have := h (-87) (by decide)
  omega

/-- Claim C10 (amended): every child-array index load actually uses to
subscript a child array (those of non-newline characters) lies in 0..25
under the alphabetic-plus-newline precondition, and every index the game
loop computes from an isalpha-filtered, lower-cased letter lies in 0..25;
the index load computes for a newline itself is negative but never used. -/
theorem claim_C10_amended :
    (∀ chars : List Nat, (∀ c ∈ chars, isAlphaC c = true ∨ c = 10) →
      ∀ i ∈ loadUsedIndices chars, 0 ≤ i ∧ i < 26)
    ∧ (∀ c : Nat, isAlphaC c = true →
        0 ≤ charIndex (toLowerC c) ∧ charIndex (toLowerC c) < 26) := by
  constructor
  · intro chars hchars i hi
    rcases List.mem_map.mp hi with ⟨c, hcf, rfl⟩
    have hcmem : c ∈ chars := (List.mem_filter.mp hcf).1
    have hcnl : (!(toLowerC c == 10)) = true := (List.mem_filter.mp hcf).2
    rcases hchars c hcmem with halpha | hnl
    · exact charIndex_alpha_bound c halpha
    · exfalso
      subst hnl
      simp [toLowerC] at hcnl
  · exact charIndex_alpha_bound

/-- Witness for C10 (amended) at the one-word source a and the letter a. -/
theorem claim_C10_witness :
    (0 ≤ (0:Int) ∧ (0:Int) < 26)
    ∧ (0 ≤ charIndex (toLowerC 97) ∧ charIndex (toLowerC 97) < 26) :=
  ⟨claim_C10_amended.1 (encode [[97]]) (by decide) 0 (by decide),
   claim_C10_amended.2 97 (by decide)⟩

end Ghost
